import Mathlib

/-!
Verification development for the dayz-tool-cli mod synchronization and
economy-config merge engine.  The Rust sources in `src/lib.rs` and
`src/utils/mods.rs` are shallowly embedded: file contents are `String`
(lists of characters), directory trees are an inductive type, the thread
pool's task processing is sequentialized in capture order, and the pure
text transformations performed between a file read and the following file
write are modelled as functions from content to content.
-/

set_option maxRecDepth 4000

namespace DayzTool

/-! ## Character and string machinery

The Rust code manipulates file contents through `str::lines`, `str::trim`,
`str::contains`, `str::starts_with`, `split`, and `join("\n")`.  These are
modelled here over `List Char`, structurally recursive so that concrete
instances evaluate inside the kernel.
-/

/-- ASCII whitespace test modelling `char::is_whitespace` on the characters
that occur in the manifests handled by the tool. -/
def isWS (c : Char) : Bool :=
  c = ' ' || c = '\t' || c = '\r' || c = '\n'

/-- Split a character list at every character satisfying `p`, keeping empty
segments, like Rust's `str::split`. -/
def splitOnP (p : Char → Bool) : List Char → List (List Char)
  | [] => [[]]
  | c :: cs =>
    if p c then [] :: splitOnP p cs
    else
      match splitOnP p cs with
      | [] => [[c]]
      | l :: ls => (c :: l) :: ls

theorem splitOnP_ne_nil (p : Char → Bool) (l : List Char) : splitOnP p l ≠ [] := by
  induction l with
  | nil => simp [splitOnP]
  | cons c cs ih =>
    simp only [splitOnP]
    by_cases h : p c
    · simp [h]
    · simp only [h, if_neg]
      cases hs : splitOnP p cs with
      | nil => simp
      | cons a as => simp

/-- `str::lines` newline test. -/
def isNlChar (c : Char) : Bool := c = '\n'

/-- Drop a single trailing carriage return, as `str::lines` does. -/
def stripCR (l : List Char) : List Char :=
  if l.getLast? = some '\r' then l.dropLast else l

/-- The per-chunk handling of `str::lines` after splitting on `'\n'`:
every chunk except the final one was newline-terminated, so its trailing
`'\r'` (from a `"\r\n"` ending) is stripped; a final unterminated chunk is
kept as-is, and the final empty chunk produced by a trailing newline is
dropped. -/
def rustLinesAux : List (List Char) → List (List Char)
  | [] => []
  | [last] => if last = [] then [] else [last]
  | part :: rest => stripCR part :: rustLinesAux rest

/-- Model of Rust `str::lines` on the underlying character list. -/
def rustLines (s : String) : List String :=
  (rustLinesAux (splitOnP isNlChar s.data)).map String.mk

/-- Model of `Vec::join("\n")` on lines. -/
def joinNl : List (List Char) → List Char
  | [] => []
  | [l] => l
  | l :: ls => l ++ '\n' :: joinNl ls

/-- `join("\n")` at the `String` level, as written back by
`update_cfgeconomy` and `remove_ce_entries`. -/
def joinLinesS (ls : List String) : String :=
  String.mk (joinNl (ls.map String.data))

/-- Leading-whitespace trim. -/
def trimLeft (l : List Char) : List Char := l.dropWhile isWS

/-- Trailing-whitespace trim. -/
def trimRight (l : List Char) : List Char := (l.reverse.dropWhile isWS).reverse

/-- Model of Rust `str::trim`. -/
def trimL (l : List Char) : List Char := trimRight (trimLeft l)

/-- `str::trim` on strings. -/
def trimS (s : String) : String := String.mk (trimL s.data)

/-- `needle.isPrefixOf hay` on character lists, modelling `str::starts_with`. -/
def startsWithL : List Char → List Char → Bool
  | [], _ => true
  | _ :: _, [] => false
  | a :: as, b :: bs => a = b && startsWithL as bs

/-- `s.starts_with(p)` for strings. -/
def startsWithS (s p : String) : Bool := startsWithL p.data s.data

/-- Substring test on character lists, modelling `str::contains`. -/
def isInfixOfL (n : List Char) (h : List Char) : Bool :=
  if startsWithL n h then true
  else
    match h with
    | [] => false
    | _ :: t => isInfixOfL n t

/-- `hay.contains(needle)` for strings. -/
def containsS (hay needle : String) : Bool := isInfixOfL needle.data hay.data

/-- Adjacent-pair occurrence test: `hasPair a b l` holds when `a` is
immediately followed by `b` somewhere in `l`. -/
def hasPair (a b : Char) : List Char → Bool
  | [] => false
  | [_] => false
  | x :: y :: r => (x = a && y = b) || hasPair a b (y :: r)

/-! ## C6: `Mod::short_name` (src/lib.rs:207-216) -/

/-- The separator set of `Mod::short_name`: `self.name.split([' ', '-', '_'])`. -/
def isSepChar (c : Char) : Bool := c = ' ' || c = '-' || c = '_'

/-- Per-segment contribution of the loop body:
`part.chars().take(3).collect::<String>().replace('@', "")`. -/
def shortNamePart (part : List Char) : String :=
  String.mk ((part.take 3).filter (fun c => !(c = '@' : Bool)))

/-- `Mod` from src/lib.rs. -/
structure Mod where
  name : String

/-- `Mod::short_name`, embedding the `push_str` accumulation loop. -/
def Mod.short_name (m : Mod) : String :=
  (splitOnP isSepChar m.name.data).foldl (fun acc part => acc ++ shortNamePart part) ""

/-- Concatenation of a list of strings. -/
def joinS : List String → String
  | [] => ""
  | s :: rest => s ++ joinS rest

/-- The spec's wording for `shortName`: split on space/`-`/`_`, strip a
leading `@` from each segment, then take the first 3 characters. -/
def short_name_spec (name : String) : String :=
  joinS ((splitOnP isSepChar name.data).map (fun part =>
    String.mk ((match part with
      | '@' :: r => r
      | l => l).take 3)))

/-- The recipe the code actually implements: take the first 3 characters of
each segment first, then delete every `@` among them. -/
def short_name_take3 (name : String) : String :=
  joinS ((splitOnP isSepChar name.data).map shortNamePart)

/-! ## C1: `compare_mod_versions` (src/utils/mods.rs:248-285) -/

/-- `ModChecksum` from src/lib.rs: one record per file of a checksum index. -/
structure ModChecksum where
  path : String
  size : Nat
  hash : String
deriving DecidableEq

/-- The `HashMap` built from the workdir checksums.  `collect()` keeps the
last inserted value per key, so lookups are modelled on the reversed
association list. -/
def toWorkdirMap (l : List ModChecksum) : List (String × Nat × String) :=
  (l.map (fun c => (c.path, c.size, c.hash))).reverse

/-- The comparison loop of `compare_mod_versions`: for each workshop record,
look it up in the workdir map; a missing path or a size/hash mismatch
returns `false`, otherwise continue. -/
def compareLoop (m : List (String × Nat × String)) : List ModChecksum → Bool
  | [] => true
  | c :: rest =>
    match List.lookup c.path m with
    | some sh => if sh.1 ≠ c.size || sh.2 ≠ c.hash then false else compareLoop m rest
    | none => false

/-- `compare_mod_versions` after both checksum lists have been computed:
`false` on a file-count difference, then the per-record loop. -/
def compare_mod_versions (workshop workdir : List ModChecksum) : Bool :=
  if workshop.length ≠ workdir.length then false
  else compareLoop (toWorkdirMap workdir) workshop

/-! ## C3: error capture in `calculate_mod_checksums` (src/utils/mods.rs:137-202) -/

/-- Outcome of one pool task of the checksum build, in the order the
workers' writes to the shared slots are observed. -/
inductive ChecksumTask where
  | success (c : ModChecksum)
  | failure (msg : String)
deriving DecidableEq

/-- The success payload of a task, if any. -/
def taskRecord : ChecksumTask → Option ModChecksum
  | .success c => some c
  | .failure _ => none

/-- The error payload of a task, if any. -/
def taskError : ChecksumTask → Option String
  | .success _ => none
  | .failure e => some e

/-- The shared accumulator and error slot after all tasks ran: a successful
task pushes its record, a failing task stores its error into the slot
unconditionally (`*error_guard = Some(e)`). -/
def run_checksum_tasks (tasks : List ChecksumTask) : List ModChecksum × Option String :=
  tasks.foldl
    (fun st t =>
      match t with
      | .success c => (st.1 ++ [c], st.2)
      | .failure e => (st.1, some e))
    ([], none)

/-- `calculate_mod_checksums` after `pool.wait()`: surface the captured
error if the slot is filled, else return the collected records. -/
def calculate_mod_checksums (tasks : List ChecksumTask) : Except String (List ModChecksum) :=
  match (run_checksum_tasks tasks).2 with
  | some e => .error e
  | none => .ok (run_checksum_tasks tasks).1

/-- First-some choice, modelling how the shared error slot combines with a
later state: `slotOr new old` keeps `new` when it is filled. -/
def slotOr : Option String → Option String → Option String
  | some e, _ => some e
  | none, err => err

/-- The error that is left in the slot once all tasks ran: the LAST failure
in observation order (each failure overwrites the slot). -/
def lastError : List ChecksumTask → Option String
  | [] => none
  | t :: ts => slotOr (lastError ts) (taskError t)

/-! ## C9: `copy_large_file` (src/utils/mods.rs:102-129, invoked by `copy_dir`) -/

/-- `LARGE_FILE_THRESHOLD` from `copy_dir`: 100 MiB. -/
def LARGE_FILE_THRESHOLD : Nat := 100 * 1024 * 1024

/-- `CHUNK_SIZE` from `copy_dir`: 8 MiB. -/
def CHUNK_SIZE : Nat := 8 * 1024 * 1024

/-- `copy_large_file`: read up to `chunk_size` bytes, append them to the
target, stop when a read returns 0 bytes.  A file is a byte list. -/
def copy_large_file (chunk_size : Nat) (source : List Nat) : List Nat :=
  if h : chunk_size = 0 ∨ source = [] then []
  else source.take chunk_size ++ copy_large_file chunk_size (source.drop chunk_size)
termination_by source.length
decreasing_by
  simp only [not_or] at h
  obtain ⟨h1, h2⟩ := h
  have h3 : 0 < source.length := List.length_pos.mpr h2
  simp only [List.length_drop]
  omega

/-! ## C10: `copy_keys` (src/utils/mods.rs:310-327) -/

/-- Model of Rust `Path::extension` on a file name: the part after the last
`.`, none when there is no `.` or when the only `.` is leading. -/
def extensionOf (n : String) : Option String :=
  match splitOnP (fun c => c = '.') n.data with
  | [] => none
  | [_] => none
  | first :: rest =>
    if first = [] ∧ rest.length = 1 then none
    else rest.getLast?.map String.mk

/-- `copy_keys`: for each source entry with extension `bikey`, copy it to
the target directory only when no file of that name exists there.  A
directory is an association list of file name to content. -/
def copy_keys (source target : List (String × String)) : List (String × String) :=
  source.foldl
    (fun tgt entry =>
      if extensionOf entry.1 = some "bikey" ∧ List.lookup entry.1 tgt = none
      then tgt ++ [entry]
      else tgt)
    target

/-! ## C8: the walk filter of `calculate_mod_checksums`
(src/utils/mods.rs:144-150 and `is_ignored_file`, 232-238) -/

/-- `is_ignored_file` applied to an entry's file name: hidden files and the
exact (case-sensitive) names `desktop.ini` / `thumbs.db`. -/
def is_ignored_file (s : String) : Bool :=
  startsWithL ['.'] s.data || s = "desktop.ini" || s = "thumbs.db"

/-- ASCII lower-casing of one character. -/
def charLower (c : Char) : Char :=
  if 65 ≤ c.toNat ∧ c.toNat ≤ 90 then Char.ofNat (c.toNat + 32) else c

/-- ASCII lower-casing of a string. -/
def lowerAscii (s : String) : String := String.mk (s.data.map charLower)

/-- The claim's ignore predicate: hidden files, and the OS-noise names
matched case-insensitively. -/
def is_ignored_spec (s : String) : Bool :=
  startsWithL ['.'] s.data || lowerAscii s = "desktop.ini" || lowerAscii s = "thumbs.db"

/-- A directory tree entry: a regular file or a directory with entries. -/
inductive FsEntry where
  | file (name : String)
  | dir (name : String) (entries : List FsEntry)

mutual

/-- Relative paths of the files yielded below one entry by
`WalkDir::new(root).min_depth(1).filter_entry(|e| !is_ignored_file(e))`
filtered to regular files: an ignored entry is pruned together with its
whole subtree. -/
def walkEntry : FsEntry → List (List String)
  | .file n => if is_ignored_file n then [] else [[n]]
  | .dir n es => if is_ignored_file n then [] else (walkList es).map (fun p => n :: p)

/-- Paths yielded for a list of sibling entries. -/
def walkList : List FsEntry → List (List String)
  | [] => []
  | e :: es => walkEntry e ++ walkList es

end

/-- Path-membership in a tree: `hasFileAt es p` holds when following the
components of `p` from the entries `es` reaches a regular file. -/
def hasFileAt : List FsEntry → List String → Bool
  | _, [] => false
  | es, [n] =>
    es.any (fun e =>
      match e with
      | .file f => f = n
      | .dir _ _ => false)
  | es, n :: rest =>
    es.any (fun e =>
      match e with
      | .file _ => false
      | .dir d l => d = n && hasFileAt l rest)
termination_by _ p => p.length

/-! ## Economy record model (src/lib.rs:218-411) -/

/-- `Flags` of a `Type` record. -/
structure Flags where
  count_in_cargo : Int
  count_in_hoarder : Int
  count_in_map : Int
  count_in_player : Int
  crafted : Int
  deloot : Int
deriving DecidableEq

/-- `Category` of a `Type` record. -/
structure Category where
  name : String
deriving DecidableEq

/-- `Usage` of a `Type` record. -/
structure Usage where
  name : String
deriving DecidableEq

/-- `Tag` of a `Type` record. -/
structure Tag where
  name : String
deriving DecidableEq

/-- `TypeValue` of a `Type` record. -/
structure TypeValue where
  name : String
deriving DecidableEq

/-- The `Type` struct of src/lib.rs (named `TypeRec` because `Type` is a
Lean keyword). -/
structure TypeRec where
  name : String
  nominal : Option Int := none
  lifetime : Option Int := none
  restock : Option Int := none
  min : Option Int := none
  quantmin : Option Int := none
  quantmax : Option Int := none
  cost : Option Int := none
  flags : Option Flags := none
  category : Option Category := none
  usage : Option (List Usage) := none
  tag : Option (List Tag) := none
  value : Option (List TypeValue) := none
deriving DecidableEq

/-- `Item` of an attachment list. -/
structure Item where
  name : String
  chance : Float

/-- `Attachments` of a `SpawnableType`. -/
structure Attachments where
  chance : Float
  item : List Item

/-- The `SpawnableType` struct of src/lib.rs. -/
structure SpawnableType where
  name : String
  attachments : List Attachments

/-- `EventFlags` of an `Event`. -/
structure EventFlags where
  deletable : Int
  init_random : Int
  remove_damaged : Int
deriving DecidableEq

/-- `Child` of an event's children list. -/
structure Child where
  lootmax : Int
  lootmin : Int
  max : Int
  min : Int
  type_ : String
deriving DecidableEq

/-- `Children` wrapper of an `Event`. -/
structure Children where
  items : List Child
deriving DecidableEq

/-- The `Event` struct of src/lib.rs. -/
structure Event where
  name : String
  nominal : Option Int := none
  min : Option Int := none
  max : Option Int := none
  lifetime : Option Int := none
  restock : Option Int := none
  saferadius : Option Int := none
  distanceraduis : Option Int := none
  cleanupradius : Option Int := none
  flags : Option EventFlags := none
  position : Option String := none
  limit : Option String := none
  active : Option Int := none
  children : Option (List Children) := none
deriving DecidableEq

/-! ## C4: `extract_xml_data` and the extractors (src/utils/mods.rs:386-514) -/

/-- The line state machine of `extract_xml_data`: skip declaration/root
lines, start accumulating on an opening `<type`/`<event`, drop comment
lines inside an element, emit the accumulated element on a matching
closing tag.  State: emitted elements, current accumulator, in-element
flag. -/
def extractLoop : List String → List String → String → Bool → List String
  | [], data, _, _ => data
  | line :: rest, data, cur, inEl =>
    let t := trimS line
    if startsWithS t "<?xml" || startsWithS t "<types" || startsWithS t "<spawnabletypes"
        || startsWithS t "<events" || startsWithS t "</types"
        || startsWithS t "</spawnabletypes" || startsWithS t "</events" then
      extractLoop rest data cur inEl
    else if startsWithS t "<type" || startsWithS t "<event" then
      extractLoop rest data (t ++ "\n") true
    else if (startsWithS t "</type" || startsWithS t "</event") && inEl then
      extractLoop rest (data ++ [cur ++ t ++ "\n"]) (cur ++ t ++ "\n") false
    else if inEl && !startsWithS t "<!--" then
      extractLoop rest data (cur ++ t ++ "\n") inEl
    else
      extractLoop rest data cur inEl

/-- `extract_xml_data` on a file's content: synthesize a root wrapper when
none of the three root tags occurs (choosing the root from whichever
inner tag appears), then run the line state machine. -/
def extract_xml_data (content : String) : List String :=
  let content :=
    if !(containsS content "<types>") && !(containsS content "<spawnabletypes>")
        && !(containsS content "<events>") then
      let root_tag :=
        if containsS content "<type" then "types"
        else if containsS content "<event" then "events"
        else "spawnabletypes"
      "<?xml version=\"1.0\" encoding=\"UTF-8\" standalone=\"yes\"?>\n<" ++ root_tag ++ ">\n"
        ++ content ++ "\n</" ++ root_tag ++ ">"
    else content
  extractLoop (rustLines content) [] "" false

/-- The per-element loop shared by the three extractors: parse every
emitted element that starts with `pre`, failing the whole file on the
first parse error.  The serde-XML deserializer is passed as `parse`. -/
def parse_elements {α : Type} (pre : String) (parse : String → Except String α) :
    List String → Except String (List α)
  | [] => .ok []
  | s :: rest =>
    if startsWithS s pre then
      match parse s with
      | .error e => .error e
      | .ok v =>
        match parse_elements pre parse rest with
        | .error e => .error e
        | .ok vs => .ok (v :: vs)
    else parse_elements pre parse rest

/-- `extract_types`: parse the `<type` elements of a data file. -/
def extract_types (parse : String → Except String TypeRec) (content : String) :
    Except String (List TypeRec) :=
  parse_elements "<type" parse (extract_xml_data content)

/-- `extract_cfgspawnabletypes`: parse the `<type` elements of a
spawnable-types data file. -/
def extract_cfgspawnabletypes (parse : String → Except String SpawnableType)
    (content : String) : Except String (List SpawnableType) :=
  parse_elements "<type" parse (extract_xml_data content)

/-- `extract_events`: parse the `<event` elements of a data file. -/
def extract_events (parse : String → Except String Event) (content : String) :
    Except String (List Event) :=
  parse_elements "<event" parse (extract_xml_data content)

/-- The C4 input: three bare self-closing `<type name="a"/>` elements with
no enclosing root. -/
def c4_input : String :=
  "<type name=\"a\"/>\n<type name=\"a\"/>\n<type name=\"a\"/>"

/-! ## C2/C5/C7: `update_cfgeconomy` (src/utils/mods.rs:755-811) and
`remove_ce_entries` (src/utils/mods.rs:864-902)

Both functions read `cfgeconomycore.xml`, transform it line by line and
write back `lines.join("\n")`.  The content-to-content transformation is
modelled; path resolution and I/O errors are outside the model. -/

/-- The identifying comment of a mod's block: `<!-- {m} -->`. -/
def ceComment (m : String) : String := "<!-- " ++ m ++ " -->"

/-- The opening line body of a mod's block: `<ce folder="{m}_ce">`. -/
def ceOpen (m : String) : String := "<ce folder=\"" ++ m ++ "_ce\">"

/-- The trigger test of `remove_ce_entries`: the line contains the
identifying comment or the opening `<ce>` line. -/
def isTrig (m l : String) : Bool :=
  containsS l (ceComment m) || containsS l (ceOpen m)

/-- The line scan of `remove_ce_entries`: a trigger line enters skipping
mode and is dropped; while skipping, a line trimming to `</ce>` is dropped
and ends skipping, any other line is dropped; outside skipping, lines are
kept.  Returns the kept lines and the final skipping state. -/
def ceScan (m : String) : List String → Bool → List String × Bool
  | [], skip => ([], skip)
  | l :: ls, skip =>
    if isTrig m l then ceScan m ls true
    else if skip && (trimS l == "</ce>") then ceScan m ls false
    else if skip then ceScan m ls skip
    else
      let r := ceScan m ls skip
      (l :: r.1, r.2)

/-- `remove_ce_entries` as a content transformation. -/
def remove_ce_entries (m : String) (content : String) : String :=
  joinLinesS (ceScan m (rustLines content) false).1

/-- `lines.iter().position(|line| line.trim() == "</economycore>")`. -/
def findCloseIdx : List String → Option Nat
  | [] => none
  | l :: ls =>
    if trimS l = "</economycore>" then some 0
    else (findCloseIdx ls).map (· + 1)

/-- The block spliced in by `update_cfgeconomy`: identifying comment,
opening `<ce>` line, one `<file>` line per non-empty record list, closing
`</ce>` line. -/
def ce_block_lines (m : String) (types : List TypeRec)
    (spawnable_types : List SpawnableType) (events : List Event) : List String :=
  ("\t" ++ ceComment m) :: ("\t" ++ ceOpen m) ::
    ((if types.isEmpty then []
        else ["\t\t<file name=\"" ++ m ++ "_types.xml\" type=\"types\" />"])
      ++ ((if spawnable_types.isEmpty then []
          else ["\t\t<file name=\"" ++ m ++ "_cfgspawnabletypes.xml\" type=\"spawnabletypes\" />"])
        ++ ((if events.isEmpty then []
            else ["\t\t<file name=\"" ++ m ++ "_events.xml\" type=\"events\" />"])
          ++ ["\t</ce>"])))

/-- `update_cfgeconomy` as a content transformation: a no-op when all three
record lists are empty, otherwise splice the block immediately before the
first line trimming to `</economycore>` (an error when there is none) and
join with `"\n"`. -/
def update_cfgeconomy (m : String) (types : List TypeRec)
    (spawnable_types : List SpawnableType) (events : List Event)
    (content : String) : Except String String :=
  if types.isEmpty ∧ spawnable_types.isEmpty ∧ events.isEmpty then .ok content
  else
    let lines := rustLines content
    match findCloseIdx lines with
    | none => .error "Could not find closing economycore tag"
    | some i =>
      .ok (joinLinesS (lines.take i ++ ce_block_lines m types spawnable_types events
        ++ lines.drop i))

/-- Number of lines of the manifest containing the opening marker of mod
`m`'s block — the number of `EconomyBlock`s for `m`. -/
def ceOpenCount (m : String) (content : String) : Nat :=
  ((rustLines content).filter (fun l => containsS l (ceOpen m))).length

/-- A sample record to register. -/
def sampleType : TypeRec := { name := "a" }

/-! ## Theorems for C1 -/

theorem compareLoop_true_iff (m : List (String × Nat × String)) (ws : List ModChecksum) :
    compareLoop m ws = true ↔
      ∀ c ∈ ws, List.lookup c.path m = some (c.size, c.hash) := by
  induction ws with
  | nil => simp [compareLoop]
  | cons c rest ih =>
    simp only [compareLoop]
    cases h : List.lookup c.path m with
    | none => simp [h]
    | some sh =>
      obtain ⟨s, hsh⟩ := sh
      by_cases hs : s = c.size
      · by_cases hh : hsh = c.hash
        · subst hs; subst hh
          simp [ih, h]
        · simp [hs, hh, h]
      · simp [hs, h]

/-- C1 (corrected): `compare_mod_versions` returns `true` exactly when the
two indexes agree — same file count and every workshop record found in the
workdir map with matching size and hash — and `false` when they differ.
The spec's polarity ("true = update needed") is inverted. -/
theorem c1_compare_mod_versions_amended (workshop workdir : List ModChecksum) :
    compare_mod_versions workshop workdir = true ↔
      (workshop.length = workdir.length ∧
       ∀ c ∈ workshop,
         List.lookup c.path (toWorkdirMap workdir) = some (c.size, c.hash)) := by
  unfold compare_mod_versions
  by_cases hlen : workshop.length = workdir.length
  · simp [hlen, compareLoop_true_iff]
  · simp [hlen]

/-- C1 counterexample: two equal singleton indexes.  The claim demands
`false` for equal indexes; the code returns `true`. -/
theorem c1_compare_polarity_counterexample :
    compare_mod_versions [⟨"addons/mod.pbo", 4, "small_file"⟩]
      [⟨"addons/mod.pbo", 4, "small_file"⟩] = true := by decide

/-! ## Theorems for C3 -/

theorem slotOr_none_right (a : Option String) : slotOr a none = a := by
  cases a <;> rfl

theorem slotOr_some_absorb (a : Option String) (e : String) (err : Option String) :
    slotOr (slotOr a (some e)) err = slotOr a (some e) := by
  cases a <;> rfl

theorem run_checksum_tasks_aux (tasks : List ChecksumTask) (acc : List ModChecksum)
    (err : Option String) :
    tasks.foldl
      (fun st t =>
        match t with
        | .success c => (st.1 ++ [c], st.2)
        | .failure e => (st.1, some e))
      (acc, err) =
      (acc ++ tasks.filterMap taskRecord, slotOr (lastError tasks) err) := by
  induction tasks generalizing acc err with
  | nil => simp [lastError, slotOr]
  | cons t ts ih =>
    cases t with
    | success c =>
      simp only [List.foldl_cons, ih (acc ++ [c]) err, lastError, taskError,
        List.filterMap_cons, taskRecord, slotOr_none_right]
      simp
    | failure e =>
      simp only [List.foldl_cons, ih acc (some e), lastError, taskError,
        List.filterMap_cons, taskRecord, slotOr_some_absorb]

/-- C3 (corrected): the error surfaced after the pool is joined is the LAST
error captured, not the first: each failing task overwrites the shared
slot (`*error_guard = Some(e)` without an emptiness check), so earlier
captured errors are lost.  With no failure, all records are returned. -/
theorem c3_last_error_wins (tasks : List ChecksumTask) :
    calculate_mod_checksums tasks =
      match lastError tasks with
      | some e => .error e
      | none => .ok (tasks.filterMap taskRecord) := by
  unfold calculate_mod_checksums run_checksum_tasks
  rw [run_checksum_tasks_aux]
  cases h : lastError tasks <;> simp [slotOr_none_right, h]

/-- C3 counterexample: two failing tasks; the surfaced error is the second
one, contradicting "the first error that was captured" wins. -/
theorem c3_first_error_counterexample :
    calculate_mod_checksums [.failure "read error 1", .failure "read error 2"] =
        .error "read error 2" ∧
      calculate_mod_checksums [.failure "read error 1", .failure "read error 2"] ≠
        .error "read error 1" := by
  refine ⟨rfl, fun hcontra => ?_⟩
  injection hcontra with h
  exact absurd h (by decide)

/-! ## Theorems for C6 -/

theorem foldl_append_shortName (l : List (List Char)) (acc : String) :
    l.foldl (fun acc part => acc ++ shortNamePart part) acc =
      acc ++ joinS (l.map shortNamePart) := by
  induction l generalizing acc with
  | nil => simp [joinS]
  | cons x xs ih => simp [joinS, ih (acc ++ shortNamePart x), String.append_assoc]

/-- C6 (corrected): `short_name` takes the first 3 characters of each
segment and only then deletes `@` characters (all of them, not only a
leading one); the particular value `short_name("@My-Cool_Mod") = "MyCooMod"`
does hold. -/
theorem c6_short_name_amended :
    (∀ m : Mod, m.short_name = short_name_take3 m.name) ∧
    Mod.short_name ⟨"@My-Cool_Mod"⟩ = "MyCooMod" := by
  constructor
  · intro m
    unfold Mod.short_name short_name_take3
    rw [foldl_append_shortName]
    simp
  · decide

/-- C6 counterexample: on `"@Myxx"` the code yields `"My"` (take 3 then
strip `@`), while the claim's recipe (strip leading `@`, then take 3)
yields `"Myx"`. -/
theorem c6_short_name_counterexample :
    Mod.short_name ⟨"@Myxx"⟩ = "My" ∧ short_name_spec "@Myxx" = "Myx" ∧
      Mod.short_name ⟨"@Myxx"⟩ ≠ short_name_spec "@Myxx" := by
  refine ⟨by decide, by decide, by decide⟩

/-! ## Theorems for C8 -/

theorem mem_walkList (es : List FsEntry) (q : List String) :
    q ∈ walkList es ↔ ∃ e ∈ es, q ∈ walkEntry e := by
  induction es with
  | nil => simp [walkList]
  | cons e es ih =>
    simp only [walkList, List.mem_append, ih]
    constructor
    · rintro (h | ⟨e', he', hq⟩)
      · exact ⟨e, List.mem_cons_self _ _, h⟩
      · exact ⟨e', List.mem_cons_of_mem _ he', hq⟩
    · rintro ⟨e', he', hq⟩
      rcases List.mem_cons.mp he' with rfl | he'
      · exact Or.inl hq
      · exact Or.inr ⟨e', he', hq⟩

/-- C8 (corrected): the checksum walk records exactly the regular files all
of whose path components below the root are non-ignored under the
CASE-SENSITIVE predicate `is_ignored_file`; an ignored directory is pruned
with its whole subtree, and differently-cased noise files such as
`Desktop.ini` are recorded. -/
theorem c8_walk_characterization (es : List FsEntry) (p : List String) :
    p ∈ walkList es ↔
      (hasFileAt es p = true ∧ ∀ n ∈ p, is_ignored_file n = false) := by
  induction p generalizing es with
  | nil =>
    rw [mem_walkList]
    constructor
    · rintro ⟨e, _, hq⟩
      exfalso
      cases e with
      | file f =>
        simp only [walkEntry] at hq
        split at hq <;> simp at hq
      | dir d l =>
        simp only [walkEntry] at hq
        split at hq <;> simp at hq
    · rintro ⟨hf, _⟩
      simp [hasFileAt] at hf
  | cons n rest ih =>
    cases rest with
    | nil =>
      rw [mem_walkList]
      constructor
      · rintro ⟨e, he, hq⟩
        cases e with
        | file f =>
          simp only [walkEntry] at hq
          by_cases hig : is_ignored_file f
          · simp [hig] at hq
          · simp only [hig, if_neg Bool.false_ne_true, Bool.false_eq_true,
              List.mem_singleton] at hq
            obtain rfl : n = f := by simpa using hq
            refine ⟨?_, ?_⟩
            · simp only [hasFileAt, List.any_eq_true]
              exact ⟨.file n, he, by simp⟩
            · intro m hm
              obtain rfl : m = n := by simpa using hm
              simpa using hig
        | dir d l =>
          simp only [walkEntry] at hq
          by_cases hig : is_ignored_file d
          · simp [hig] at hq
          · simp only [hig, Bool.false_eq_true, if_false, List.mem_map] at hq
            obtain ⟨q, hq1, hq2⟩ := hq
            obtain ⟨rfl, rfl⟩ : d = n ∧ q = [] := by
              constructor <;> [exact (List.cons.injEq _ _ _ _ ▸ hq2).1;
                exact (List.cons.injEq _ _ _ _ ▸ hq2).2]
            exfalso
            have h0 := (ih l).mp hq1
            simp [hasFileAt] at h0
      · rintro ⟨hf, hclean⟩
        simp only [hasFileAt, List.any_eq_true] at hf
        obtain ⟨e, he, hmatch⟩ := hf
        cases e with
        | file f =>
          obtain rfl : f = n := by simpa using hmatch
          refine ⟨.file f, he, ?_⟩
          have hig : is_ignored_file f = false := hclean f (by simp)
          simp [walkEntry, hig]
        | dir d l => simp at hmatch
    | cons n2 r2 =>
      rw [mem_walkList]
      constructor
      · rintro ⟨e, he, hq⟩
        cases e with
        | file f =>
          simp only [walkEntry] at hq
          split at hq <;> simp at hq
        | dir d l =>
          simp only [walkEntry] at hq
          by_cases hig : is_ignored_file d
          · simp [hig] at hq
          · simp only [hig, Bool.false_eq_true, if_false, List.mem_map] at hq
            obtain ⟨q, hq1, hq2⟩ := hq
            obtain ⟨rfl, rfl⟩ : d = n ∧ q = n2 :: r2 := by
              constructor <;> [exact (List.cons.injEq _ _ _ _ ▸ hq2).1;
                exact (List.cons.injEq _ _ _ _ ▸ hq2).2]
            obtain ⟨hfl, hcl⟩ := (ih l).mp hq1
            refine ⟨?_, ?_⟩
            · simp only [hasFileAt, List.any_eq_true]
              exact ⟨.dir d l, he, by simp [hfl]⟩
            · intro m hm
              rcases List.mem_cons.mp hm with rfl | hm2
              · simpa using hig
              · exact hcl m hm2
      · rintro ⟨hf, hclean⟩
        simp only [hasFileAt, List.any_eq_true] at hf
        obtain ⟨e, he, hmatch⟩ := hf
        cases e with
        | file f => simp at hmatch
        | dir d l =>
          obtain ⟨hd, hrec⟩ : (d = n) ∧ hasFileAt l (n2 :: r2) = true := by
            simpa using hmatch
          subst hd
          refine ⟨.dir d l, he, ?_⟩
          have hig : is_ignored_file d = false := hclean d (by simp)
          simp only [walkEntry, hig, Bool.false_eq_true, if_false, List.mem_map]
          exact ⟨n2 :: r2,
            (ih l).mpr ⟨hrec, fun m hm => hclean m (List.mem_cons_of_mem _ hm)⟩,
            rfl⟩

/-- C8 counterexample: `Desktop.ini` is an OS-noise name when matched
case-insensitively, as the claim requires, yet the walk records it because
the code compares case-sensitively. -/
theorem c8_case_sensitivity_counterexample :
    walkList [.file "Desktop.ini"] = [["Desktop.ini"]] ∧
      is_ignored_spec "Desktop.ini" = true ∧
      is_ignored_file "Desktop.ini" = false := by
  refine ⟨?_, by decide, by decide⟩
  simp [walkList, walkEntry, is_ignored_file, startsWithL]

/-! ## Theorems for C4 -/

/-- C4 (corrected): on the three bare self-closing `<type name="a"/>`
elements the extractor yields exactly 0 Type records — a self-closing
element opens accumulation but never reaches the closing-tag branch, so no
element is ever emitted — and the spawnable-type and event lists stay
empty too, for any serde deserializer. -/
theorem c4_selfclosing_extraction :
    extract_xml_data c4_input = [] ∧
      (∀ parse, extract_types parse c4_input = .ok []) ∧
      (∀ parse, extract_cfgspawnabletypes parse c4_input = .ok []) ∧
      (∀ parse, extract_events parse c4_input = .ok []) := by
  have h : extract_xml_data c4_input = [] := by decide
  exact ⟨h,
    fun parse => by simp [extract_types, h, parse_elements],
    fun parse => by simp [extract_cfgspawnabletypes, h, parse_elements],
    fun parse => by simp [extract_events, h, parse_elements]⟩

/-- C4 counterexample: even with a deserializer that accepts every element,
extraction returns the empty record list, not the 3 records the claim
demands. -/
theorem c4_selfclosing_counterexample :
    extract_types (fun _ => .ok { name := "a" }) c4_input = .ok [] := by
  have h : extract_xml_data c4_input = [] := by decide
  simp [extract_types, h, parse_elements]

/-! ## Theorems for C9 -/

theorem copy_large_file_eq (cs : Nat) (hcs : 0 < cs) (source : List Nat) :
    copy_large_file cs source = source := by
  generalize hn : source.length = n
  induction n using Nat.strong_induction_on generalizing source with
  | _ n ih =>
    unfold copy_large_file
    by_cases hs : source = []
    · simp [hs]
    · have hcond : ¬(cs = 0 ∨ source = []) := by
        simp only [not_or]
        exact ⟨by omega, hs⟩
      rw [dif_neg hcond]
      have hpos : 0 < source.length := List.length_pos.mpr hs
      have hlt : (source.drop cs).length < n := by
        rw [List.length_drop]
        omega
      rw [ih _ hlt (source.drop cs) rfl]
      exact List.take_append_drop cs source

/-- C9 (confirmed): for a source file longer than the large-file threshold,
the chunked copy (with the 8 MiB chunk size `copy_dir` passes) produces a
byte-identical target of exactly the source length. -/
theorem c9_copy_large_file_identity (source : List Nat)
    (hlarge : source.length > LARGE_FILE_THRESHOLD) :
    copy_large_file CHUNK_SIZE source = source ∧
      (copy_large_file CHUNK_SIZE source).length = source.length := by
  have h := copy_large_file_eq CHUNK_SIZE (by norm_num [CHUNK_SIZE]) source
  exact ⟨h, by rw [h]⟩

/-- Witness for C9 at a concrete just-over-threshold source. -/
theorem c9_copy_large_file_identity_witness :
    (List.replicate (LARGE_FILE_THRESHOLD + 1) 0).length > LARGE_FILE_THRESHOLD ∧
      copy_large_file CHUNK_SIZE (List.replicate (LARGE_FILE_THRESHOLD + 1) 0) =
        List.replicate (LARGE_FILE_THRESHOLD + 1) 0 := by
  refine ⟨by simp, (c9_copy_large_file_identity _ (by simp)).1⟩

/-! ## Theorems for C10 -/

theorem lookup_append_right (n : String) (t : List (String × String)) (e : String × String) :
    List.lookup n (t ++ [e]) =
      match List.lookup n t with
      | some v => some v
      | none => List.lookup n [e] := by
  induction t with
  | nil => simp
  | cons p ps ih =>
    obtain ⟨k, v⟩ := p
    by_cases h : n = k
    · simp [List.lookup, h]
    · have hb : (n == k) = false := by simpa using h
      simpa [List.lookup, hb] using ih

theorem copy_keys_aux (source : List (String × String)) :
    ∀ target : List (String × String),
      (∀ n, (List.lookup n target).isSome →
          List.lookup n (copy_keys source target) = List.lookup n target) ∧
      (∀ n c, List.lookup n target = none →
          List.lookup n (copy_keys source target) = some c →
          extensionOf n = some "bikey" ∧ (n, c) ∈ source) := by
  induction source with
  | nil =>
    intro target
    refine ⟨fun n _ => rfl, fun n c hnone hsome => ?_⟩
    rw [show copy_keys [] target = target from rfl] at hsome
    rw [hnone] at hsome
    cases hsome
  | cons e es ih =>
    intro target
    obtain ⟨m, cc⟩ := e
    by_cases hcond : extensionOf m = some "bikey" ∧ List.lookup m target = none
    · have hstep : copy_keys ((m, cc) :: es) target = copy_keys es (target ++ [(m, cc)]) := by
        simp [copy_keys, hcond]
      obtain ⟨ihf, ihn⟩ := ih (target ++ [(m, cc)])
      constructor
      · intro n hn
        have h1 : List.lookup n (target ++ [(m, cc)]) = List.lookup n target := by
          rw [lookup_append_right]
          cases hl : List.lookup n target with
          | some v => rfl
          | none => rw [hl] at hn; cases hn
        rw [hstep, ihf n (by rw [h1]; exact hn), h1]
      · intro n c hnone hsome
        rw [hstep] at hsome
        by_cases hnm : n = m
        · subst hnm
          have h1 : List.lookup n (target ++ [(n, cc)]) = some cc := by
            rw [lookup_append_right, hnone]
            simp [List.lookup]
          have h2 := ihf n (by rw [h1]; rfl)
          rw [h2, h1] at hsome
          have hc : c = cc := by injection hsome with h; exact h.symm
          subst hc
          exact ⟨hcond.1, List.mem_cons_self _ _⟩
        · have hb : (n == m) = false := by simpa using hnm
          have h1 : List.lookup n (target ++ [(m, cc)]) = none := by
            rw [lookup_append_right, hnone]
            simp [List.lookup, hb]
          obtain ⟨hext, hmem⟩ := ihn n c h1 hsome
          exact ⟨hext, List.mem_cons_of_mem _ hmem⟩
    · have hstep : copy_keys ((m, cc) :: es) target = copy_keys es target := by
        simp only [copy_keys, List.foldl_cons]
        rw [if_neg hcond]
      obtain ⟨ihf, ihn⟩ := ih target
      constructor
      · intro n hn
        rw [hstep]
        exact ihf n hn
      · intro n c hnone hsome
        rw [hstep] at hsome
        obtain ⟨hext, hmem⟩ := ihn n c hnone hsome
        exact ⟨hext, List.mem_cons_of_mem _ hmem⟩

/-- C10 (confirmed): `copy_keys` never overwrites an existing target file —
lookups of names already present are unchanged — and any file that appears
in the target afterwards but was not there before is a `.bikey` file taken
from the source; files without the `bikey` extension are never copied. -/
theorem c10_copy_keys_frame (source target : List (String × String)) :
    (∀ n, (List.lookup n target).isSome →
        List.lookup n (copy_keys source target) = List.lookup n target) ∧
    (∀ n c, List.lookup n target = none →
        List.lookup n (copy_keys source target) = some c →
        extensionOf n = some "bikey" ∧ (n, c) ∈ source) :=
  copy_keys_aux source target

/-- Witness for C10: a source `a.bikey` whose name already exists in the
target is not copied (the old content survives), and a fresh `b.bikey` is
copied while `readme.txt` is not. -/
theorem c10_copy_keys_frame_witness :
    List.lookup "a.bikey"
        (copy_keys [("a.bikey", "new"), ("b.bikey", "fresh"), ("readme.txt", "doc")]
          [("a.bikey", "old")]) = some "old" ∧
      extensionOf "b.bikey" = some "bikey" ∧
      ("b.bikey", "fresh") ∈
        ([("a.bikey", "new"), ("b.bikey", "fresh"), ("readme.txt", "doc")] :
          List (String × String)) := by
  refine ⟨?_, by decide, by decide⟩
  have h := (c10_copy_keys_frame
    [("a.bikey", "new"), ("b.bikey", "fresh"), ("readme.txt", "doc")]
    [("a.bikey", "old")]).1 "a.bikey" (by decide)
  rw [h]
  decide

/-! ## List and string lemmas for the registry proofs -/

theorem getLast?_mem {α : Type} {l : List α} {a : α} (h : l.getLast? = some a) : a ∈ l := by
  induction l with
  | nil => cases h
  | cons x xs ih =>
    cases xs with
    | nil =>
      simp only [List.getLast?_singleton, Option.some.injEq] at h
      simp [h]
    | cons y ys =>
      rw [List.getLast?_cons_cons] at h
      exact List.mem_cons_of_mem _ (ih h)

theorem getLast?_append_right {α : Type} {xs ys : List α} (h : ys ≠ []) :
    (xs ++ ys).getLast? = ys.getLast? := by
  rw [List.getLast?_append]
  cases hl : ys.getLast? with
  | none =>
    exact absurd (by simpa using hl) h
  | some a => rfl

theorem getLast?_drop {α : Type} (ls : List α) (i : Nat) (h : i < ls.length) :
    (ls.drop i).getLast? = ls.getLast? := by
  conv_rhs => rw [← List.take_append_drop i ls]
  rw [getLast?_append_right]
  intro hd
  have := congrArg List.length hd
  simp only [List.length_drop, List.length_nil] at this
  omega

/-! ### splitOnP and joinNl -/

theorem splitOnP_no_sep (p : Char → Bool) (l : List Char) (h : ∀ c ∈ l, p c = false) :
    splitOnP p l = [l] := by
  induction l with
  | nil => rfl
  | cons c cs ih =>
    have hc : p c = false := h c (List.mem_cons_self _ _)
    have ihs := ih (fun x hx => h x (List.mem_cons_of_mem _ hx))
    simp [splitOnP, hc, ihs]

theorem splitOnP_append_sep (p : Char → Bool) (x rest : List Char) (c : Char)
    (hc : p c = true) (hx : ∀ a ∈ x, p a = false) :
    splitOnP p (x ++ c :: rest) = x :: splitOnP p rest := by
  induction x with
  | nil => simp [splitOnP, hc]
  | cons a as ih =>
    have ha : p a = false := hx a (List.mem_cons_self _ _)
    have ihs := ih (fun b hb => hx b (List.mem_cons_of_mem _ hb))
    simp only [List.cons_append, splitOnP, ha, Bool.false_eq_true, if_false,
      List.append_eq, ihs]

theorem joinNl_split (ls : List (List Char)) (h : ∀ l ∈ ls, '\n' ∉ l) (hne : ls ≠ []) :
    splitOnP isNlChar (joinNl ls) = ls := by
  induction ls with
  | nil => exact absurd rfl hne
  | cons x xs ih =>
    cases xs with
    | nil =>
      simp only [joinNl]
      exact splitOnP_no_sep _ x (fun c hc => by
        have := h x (List.mem_cons_self _ _)
        simp only [isNlChar, decide_eq_false_iff_not]
        intro hceq; subst hceq; exact this hc)
    | cons y ys =>
      simp only [joinNl]
      rw [splitOnP_append_sep isNlChar x (joinNl (y :: ys)) '\n' (by simp [isNlChar])
        (fun c hc => by
          have := h x (List.mem_cons_self _ _)
          simp only [isNlChar, decide_eq_false_iff_not]
          intro hceq; subst hceq; exact this hc)]
      rw [ih (fun l hl => h l (List.mem_cons_of_mem _ hl)) (by simp)]

/-- A string is empty exactly when its character list is. -/
theorem data_eq_nil_iff (s : String) : s.data = [] ↔ s = "" := by
  constructor
  · intro h
    cases s with
    | mk d =>
      have hd : d = [] := h
      subst hd
      rfl
  · intro h; subst h; rfl

/-- `rustLinesAux` is the identity on a part list with no trailing carriage
returns and a nonempty final part. -/
theorem rustLinesAux_id (parts : List (List Char))
    (hcr : ∀ x ∈ parts, x.getLast? ≠ some '\r')
    (hlast : parts.getLast? ≠ some []) :
    rustLinesAux parts = parts := by
  induction parts with
  | nil => rfl
  | cons p ps ih =>
    cases ps with
    | nil =>
      have hp : p ≠ [] := by
        intro h
        subst h
        exact hlast (by simp)
      simp [rustLinesAux, hp]
    | cons q qs =>
      have hstrip : stripCR p = p := by
        unfold stripCR
        rw [if_neg (hcr p (List.mem_cons_self _ _))]
      rw [show rustLinesAux (p :: q :: qs) = stripCR p :: rustLinesAux (q :: qs) from rfl]
      rw [hstrip, ih (fun x hx => hcr x (List.mem_cons_of_mem _ hx))
        (by rwa [List.getLast?_cons_cons] at hlast)]

/-- Every output part of `rustLinesAux` is an input part, possibly with a
trailing carriage return stripped. -/
theorem rustLinesAux_shape (parts : List (List Char)) :
    ∀ x ∈ rustLinesAux parts, ∃ p ∈ parts, x = stripCR p ∨ x = p := by
  induction parts with
  | nil => intro x hx; cases hx
  | cons p ps ih =>
    cases ps with
    | nil =>
      intro x hx
      by_cases hp : p = []
      · simp [rustLinesAux, hp] at hx
      · simp only [rustLinesAux, hp, if_neg, List.mem_singleton] at hx
        exact ⟨p, List.mem_cons_self _ _, Or.inr (by simpa using hx)⟩
    | cons q qs =>
      intro x hx
      rw [show rustLinesAux (p :: q :: qs) = stripCR p :: rustLinesAux (q :: qs) from rfl] at hx
      rcases List.mem_cons.mp hx with rfl | hx2
      · exact ⟨p, List.mem_cons_self _ _, Or.inl rfl⟩
      · obtain ⟨p2, hp2, hor⟩ := ih x hx2
        exact ⟨p2, List.mem_cons_of_mem _ hp2, hor⟩

/-- Round trip: joining hygienic lines with `"\n"` and re-splitting them in
Rust's `lines()` sense recovers the lines, provided the last line is not
empty. -/
theorem rustLines_joinLinesS (ls : List String)
    (hnl : ∀ l ∈ ls, '\n' ∉ l.data)
    (hcr : ∀ l ∈ ls, l.data.getLast? ≠ some '\r')
    (hlast : ls.getLast? ≠ some "") :
    rustLines (joinLinesS ls) = ls := by
  cases ls with
  | nil => rfl
  | cons a as =>
    unfold rustLines joinLinesS
    have hsplit : splitOnP isNlChar (String.mk (joinNl ((a :: as).map String.data))).data =
        (a :: as).map String.data := by
      show splitOnP isNlChar (joinNl ((a :: as).map String.data)) = (a :: as).map String.data
      exact joinNl_split _ (fun l hl => by
          obtain ⟨s, hs, rfl⟩ := List.mem_map.mp hl
          exact hnl s hs) (by simp)
    rw [hsplit]
    have hlast2 : ((a :: as).map String.data).getLast? ≠ some [] := by
      rw [List.getLast?_map]
      cases hg : (a :: as).getLast? with
      | none => simp
      | some x =>
        intro hx
        have hxd : x.data = [] := by
          have hx2 : some x.data = some [] := hx
          injection hx2
        exact hlast (by rw [hg, (data_eq_nil_iff x).mp hxd])
    rw [rustLinesAux_id _ (fun x hx => by
        obtain ⟨s, hs, rfl⟩ := List.mem_map.mp hx
        exact hcr s hs) hlast2]
    rw [List.map_map]
    calc ((a :: as).map (String.mk ∘ String.data))
        = (a :: as).map id := List.map_congr_left (fun l _ => rfl)
      _ = a :: as := List.map_id _

/-! ### startsWithL, isInfixOfL, hasPair -/

theorem startsWithL_self_append (n t : List Char) : startsWithL n (n ++ t) = true := by
  induction n with
  | nil => rfl
  | cons a as ih => simp [startsWithL, ih]

theorem isInfix_of_startsWith {n h : List Char} (hs : startsWithL n h = true) :
    isInfixOfL n h = true := by
  unfold isInfixOfL
  rw [hs]
  simp

theorem isInfix_cons {n h : List Char} (c : Char) (hi : isInfixOfL n h = true) :
    isInfixOfL n (c :: h) = true := by
  unfold isInfixOfL
  by_cases hs : startsWithL n (c :: h) = true
  · rw [hs]; simp
  · rw [Bool.eq_false_iff.mpr hs]
    simpa using hi

theorem isInfix_append_self (pre n : List Char) : isInfixOfL n (pre ++ n) = true := by
  induction pre with
  | nil =>
    exact isInfix_of_startsWith (by simpa using startsWithL_self_append n [])
  | cons c cs ih => exact isInfix_cons c ih

theorem startsWith_length {n h : List Char} (hs : startsWithL n h = true) :
    n.length ≤ h.length := by
  induction n generalizing h with
  | nil => simp
  | cons a as ih =>
    cases h with
    | nil => cases hs
    | cons b bs =>
      simp only [startsWithL, Bool.and_eq_true] at hs
      have := ih hs.2
      simp only [List.length_cons]
      omega

theorem isInfix_length {n h : List Char} (hi : isInfixOfL n h = true) :
    n.length ≤ h.length := by
  induction h with
  | nil =>
    unfold isInfixOfL at hi
    by_cases hs : startsWithL n [] = true
    · exact startsWith_length hs
    · rw [Bool.eq_false_iff.mpr hs] at hi
      simp at hi
  | cons b bs ih =>
    unfold isInfixOfL at hi
    by_cases hs : startsWithL n (b :: bs) = true
    · exact startsWith_length hs
    · rw [Bool.eq_false_iff.mpr hs] at hi
      simp only [if_false] at hi
      have := ih (by simpa using hi)
      simp only [List.length_cons]
      omega

theorem startsWith_pair {a b : Char} {t h : List Char}
    (hs : startsWithL (a :: b :: t) h = true) :
    ∃ r, h = a :: b :: r := by
  cases h with
  | nil => cases hs
  | cons x xs =>
    cases xs with
    | nil =>
      simp only [startsWithL, Bool.and_eq_true] at hs
      cases hs.2
    | cons y ys =>
      simp only [startsWithL, Bool.and_eq_true, decide_eq_true_eq] at hs
      obtain ⟨h1, h2, _⟩ := hs
      subst h1; subst h2
      exact ⟨ys, rfl⟩

theorem infix_hasPair {a b : Char} {t h : List Char}
    (hi : isInfixOfL (a :: b :: t) h = true) : hasPair a b h = true := by
  induction h with
  | nil =>
    unfold isInfixOfL at hi
    by_cases hs : startsWithL (a :: b :: t) [] = true
    · cases hs
    · rw [Bool.eq_false_iff.mpr hs] at hi; simp at hi
  | cons x xs ih =>
    unfold isInfixOfL at hi
    by_cases hs : startsWithL (a :: b :: t) (x :: xs) = true
    · obtain ⟨r, hr⟩ := startsWith_pair hs
      rw [hr]
      simp [hasPair]
    · rw [Bool.eq_false_iff.mpr hs] at hi
      simp only [if_false] at hi
      have h2 := ih (by simpa using hi)
      cases xs with
      | nil => cases h2
      | cons y ys =>
        simp only [hasPair, Bool.or_eq_true] at h2 ⊢
        exact Or.inr h2

theorem hasPair_no_a {a b : Char} {l : List Char} (h : a ∉ l) : hasPair a b l = false := by
  induction l with
  | nil => rfl
  | cons x xs ih =>
    cases xs with
    | nil => rfl
    | cons y ys =>
      have hx : ¬(x = a) := fun hxa => h (hxa ▸ List.mem_cons_self _ _)
      have hrest := ih (fun hm => h (List.mem_cons_of_mem _ hm))
      simp only [hasPair, Bool.or_eq_false_iff]
      constructor
      · simp [hx]
      · exact hrest

theorem hasPair_append_false {a b : Char} {xs ys : List Char}
    (h1 : hasPair a b xs = false) (h2 : hasPair a b ys = false)
    (hb : ¬(xs.getLast? = some a ∧ ys.head? = some b)) :
    hasPair a b (xs ++ ys) = false := by
  induction xs with
  | nil => simpa using h2
  | cons x xs ih =>
    cases xs with
    | nil =>
      simp only [List.cons_append, List.nil_append]
      cases ys with
      | nil => rfl
      | cons y yt =>
        simp only [hasPair, Bool.or_eq_false_iff]
        refine ⟨?_, h2⟩
        by_cases hxa : x = a
        · subst hxa
          by_cases hyb : y = b
          · exact absurd ⟨rfl, by subst hyb; rfl⟩ hb
          · simp [hyb]
        · simp [hxa]
    | cons x2 xt =>
      simp only [List.cons_append]
      have hx1 : hasPair a b (x2 :: xt) = false := by
        simp only [hasPair, Bool.or_eq_false_iff] at h1
        exact h1.2
      have hbl : ¬((x2 :: xt).getLast? = some a ∧ ys.head? = some b) := by
        rwa [show (x :: x2 :: xt).getLast? = (x2 :: xt).getLast? from
          List.getLast?_cons_cons] at hb
      have := ih hx1 hbl
      simp only [List.cons_append] at this
      simp only [hasPair, Bool.or_eq_false_iff]
      constructor
      · simp only [hasPair, Bool.or_eq_false_iff] at h1
        exact h1.1
      · exact this

/-! ### trim -/

theorem trimLeft_ws_lead (pre l : List Char) (hpre : ∀ c ∈ pre, isWS c = true) :
    trimLeft (pre ++ l) = trimLeft l := by
  induction pre with
  | nil => rfl
  | cons c cs ih =>
    have hc : isWS c = true := hpre c (List.mem_cons_self _ _)
    simp only [List.cons_append, trimLeft, List.dropWhile_cons, hc, if_true]
    exact ih (fun x hx => hpre x (List.mem_cons_of_mem _ hx))

theorem trimRight_cons (a : Char) (l : List Char) (ha : isWS a = false) :
    trimRight (a :: l) = a :: trimRight l := by
  unfold trimRight
  rw [List.reverse_cons, List.dropWhile_append]
  by_cases he : (l.reverse.dropWhile isWS).isEmpty = true
  · rw [if_pos he]
    simp only [List.dropWhile_cons, ha, Bool.false_eq_true, if_false, List.dropWhile_nil]
    have : l.reverse.dropWhile isWS = [] := by
      cases hdw : l.reverse.dropWhile isWS with
      | nil => rfl
      | cons => rw [hdw] at he; simp at he
    rw [this]
    rfl
  · rw [if_neg he]
    rw [List.reverse_append]
    rfl

theorem trim_pair (pre : List Char) (hpre : ∀ c ∈ pre, isWS c = true) (a b : Char)
    (ha : isWS a = false) (hb : isWS b = false) (rest : List Char) :
    ∃ t, trimL (pre ++ a :: b :: rest) = a :: b :: t := by
  unfold trimL
  rw [trimLeft_ws_lead pre _ hpre]
  rw [show trimLeft (a :: b :: rest) = a :: b :: rest from by
    simp [trimLeft, List.dropWhile_cons, ha]]
  rw [trimRight_cons a _ ha, trimRight_cons b _ hb]
  exact ⟨trimRight rest, rfl⟩

theorem trimS_ne_close (l : String) (pre : List Char) (hpre : ∀ c ∈ pre, isWS c = true)
    (b : Char) (hb : isWS b = false) (hbne : b ≠ '/') (rest : List Char)
    (hl : l.data = pre ++ '<' :: b :: rest) :
    ¬(trimS l = "</ce>") := by
  intro hclose
  obtain ⟨t, ht⟩ := trim_pair pre hpre '<' b (by decide) hb rest
  have hdata : trimL l.data = "</ce>".data := by
    have := congrArg String.data hclose
    exact this
  rw [hl, ht] at hdata
  have : b = '/' := by
    have h2 := congrArg (fun x => x.get? 1) hdata
    simpa using h2
  exact hbne this

/-! ### ceScan stepping lemmas -/

theorem ceScan_trig {m l : String} (rest : List String) (s : Bool)
    (h : isTrig m l = true) : ceScan m (l :: rest) s = ceScan m rest true := by
  simp [ceScan, h]

theorem ceScan_skip_drop {m l : String} (rest : List String)
    (h : ¬(trimS l = "</ce>")) : ceScan m (l :: rest) true = ceScan m rest true := by
  by_cases ht : isTrig m l = true
  · simp [ceScan, ht]
  · have hb : (trimS l == "</ce>") = false := by
      simpa using h
    simp [ceScan, Bool.eq_false_iff.mpr ht, hb]

theorem ceScan_close {m l : String} (rest : List String)
    (ht : isTrig m l = false) (h : trimS l = "</ce>") :
    ceScan m (l :: rest) true = ceScan m rest false := by
  have hb : (trimS l == "</ce>") = true := by simpa using h
  simp [ceScan, ht, hb]

theorem ceScan_keep {m l : String} (rest : List String)
    (ht : isTrig m l = false) :
    ceScan m (l :: rest) false =
      (l :: (ceScan m rest false).1, (ceScan m rest false).2) := by
  simp [ceScan, ht]

theorem ceScan_no_trig {m : String} (xs : List String)
    (h : ∀ l ∈ xs, isTrig m l = false) : ceScan m xs false = (xs, false) := by
  induction xs with
  | nil => rfl
  | cons l ls ih =>
    rw [ceScan_keep ls (h l (List.mem_cons_self _ _))]
    rw [ih (fun x hx => h x (List.mem_cons_of_mem _ hx))]

theorem ceScan_append (m : String) (xs ys : List String) (s : Bool) :
    ceScan m (xs ++ ys) s =
      ((ceScan m xs s).1 ++ (ceScan m ys (ceScan m xs s).2).1,
        (ceScan m ys (ceScan m xs s).2).2) := by
  induction xs generalizing s with
  | nil => rfl
  | cons l ls ih =>
    by_cases ht : isTrig m l = true
    · simp only [List.cons_append, ceScan_trig _ _ ht, ih true]
    · have ht2 : isTrig m l = false := Bool.eq_false_iff.mpr ht
      cases s with
      | false =>
        simp only [List.cons_append, ceScan_keep _ ht2, ih false, List.cons_append]
      | true =>
        by_cases hc : trimS l = "</ce>"
        · simp only [List.cons_append, ceScan_close _ ht2 hc, ih false,
            ceScan_close ls ht2 hc]
        · simp only [List.cons_append, ceScan_skip_drop _ hc, ih true,
            ceScan_skip_drop ls hc]

theorem ceScan_out_mem (m : String) (xs : List String) (s : Bool) :
    ∀ l ∈ (ceScan m xs s).1, l ∈ xs ∧ isTrig m l = false := by
  induction xs generalizing s with
  | nil => intro l hl; cases hl
  | cons x rest ih =>
    intro l hl
    by_cases ht : isTrig m x = true
    · rw [ceScan_trig _ _ ht] at hl
      obtain ⟨h1, h2⟩ := ih true l hl
      exact ⟨List.mem_cons_of_mem _ h1, h2⟩
    · have ht2 : isTrig m x = false := Bool.eq_false_iff.mpr ht
      cases s with
      | false =>
        rw [ceScan_keep _ ht2] at hl
        rcases List.mem_cons.mp hl with rfl | hl2
        · exact ⟨List.mem_cons_self _ _, ht2⟩
        · obtain ⟨h1, h2⟩ := ih false l hl2
          exact ⟨List.mem_cons_of_mem _ h1, h2⟩
      | true =>
        by_cases hc : trimS x = "</ce>"
        · rw [ceScan_close _ ht2 hc] at hl
          obtain ⟨h1, h2⟩ := ih false l hl
          exact ⟨List.mem_cons_of_mem _ h1, h2⟩
        · rw [ceScan_skip_drop _ hc] at hl
          obtain ⟨h1, h2⟩ := ih true l hl
          exact ⟨List.mem_cons_of_mem _ h1, h2⟩

/-! ### Facts about the spliced block -/

theorem length_data_append (s t : String) :
    (s ++ t).data.length = s.data.length + t.data.length := by
  rw [String.data_append, List.length_append]

theorem isTrig_comment_line (m : String) : isTrig m ("\t" ++ ceComment m) = true := by
  unfold isTrig containsS
  have h : ("\t" ++ ceComment m).data = '\t' :: (ceComment m).data := by
    rw [String.data_append]
    rfl
  rw [h]
  have := isInfix_append_self ['\t'] (ceComment m).data
  simp only [List.cons_append, List.nil_append] at this
  rw [this]
  rfl

theorem isTrig_close_false (m : String) : isTrig m "\t</ce>" = false := by
  unfold isTrig containsS
  have h1 : isInfixOfL (ceComment m).data "\t</ce>".data = false := by
    by_cases h : isInfixOfL (ceComment m).data "\t</ce>".data = true
    · exfalso
      have hlen := isInfix_length h
      have : (ceComment m).data.length = m.data.length + 9 := by
        unfold ceComment
        rw [String.data_append, String.data_append, List.length_append, List.length_append]
        simp
        omega
      rw [this] at hlen
      have : ("\t</ce>" : String).data.length = 6 := by decide
      omega
    · exact Bool.eq_false_iff.mpr h
  have h2 : isInfixOfL (ceOpen m).data "\t</ce>".data = false := by
    by_cases h : isInfixOfL (ceOpen m).data "\t</ce>".data = true
    · exfalso
      have hlen := isInfix_length h
      have : (ceOpen m).data.length = m.data.length + 17 := by
        unfold ceOpen
        rw [String.data_append, String.data_append, List.length_append, List.length_append]
        simp
        omega
      rw [this] at hlen
      have : ("\t</ce>" : String).data.length = 6 := by decide
      omega
    · exact Bool.eq_false_iff.mpr h
  rw [h1, h2]
  rfl

theorem trimS_tab_close : trimS "\t</ce>" = "</ce>" := by decide

/-- The lines strictly inside the block (opening `<ce>` line included) never
trim to `</ce>`. -/
theorem block_middle_ne_close (m : String) :
    ¬(trimS ("\t" ++ ceOpen m) = "</ce>") ∧
      ¬(trimS ("\t\t<file name=\"" ++ m ++ "_types.xml\" type=\"types\" />") = "</ce>") ∧
      ¬(trimS ("\t\t<file name=\"" ++ m ++ "_cfgspawnabletypes.xml\" type=\"spawnabletypes\" />")
          = "</ce>") ∧
      ¬(trimS ("\t\t<file name=\"" ++ m ++ "_events.xml\" type=\"events\" />") = "</ce>") := by
  refine ⟨?_, ?_, ?_, ?_⟩
  · refine trimS_ne_close _ ['\t'] (by decide) 'c' (by decide) (by decide)
      ("e folder=\"".data ++ m.data ++ "_ce\">".data) ?_
    show ("\t" ++ ceOpen m).data = _
    unfold ceOpen
    rw [String.data_append, String.data_append, String.data_append]
    rfl
  · refine trimS_ne_close _ ['\t', '\t'] (by decide) 'f' (by decide) (by decide)
      ("ile name=\"".data ++ m.data ++ "_types.xml\" type=\"types\" />".data) ?_
    rw [String.data_append, String.data_append]
    rfl
  · refine trimS_ne_close _ ['\t', '\t'] (by decide) 'f' (by decide) (by decide)
      ("ile name=\"".data ++ m.data ++ "_cfgspawnabletypes.xml\" type=\"spawnabletypes\" />".data) ?_
    rw [String.data_append, String.data_append]
    rfl
  · refine trimS_ne_close _ ['\t', '\t'] (by decide) 'f' (by decide) (by decide)
      ("ile name=\"".data ++ m.data ++ "_events.xml\" type=\"events\" />".data) ?_
    rw [String.data_append, String.data_append]
    rfl

/-- Scanning the whole spliced block from outside a block drops it entirely
and ends outside a block. -/
theorem ceScan_drop_mid (m : String) (mid : List String)
    (hmid : ∀ l ∈ mid, ¬(trimS l = "</ce>")) :
    ceScan m (mid ++ ["\t</ce>"]) true = ([], false) := by
  induction mid with
  | nil =>
    rw [List.nil_append]
    rw [ceScan_close [] (isTrig_close_false m) trimS_tab_close]
    rfl
  | cons x xs ih =>
    rw [List.cons_append, ceScan_skip_drop _ (hmid x (List.mem_cons_self _ _))]
    exact ih (fun l hl => hmid l (List.mem_cons_of_mem _ hl))

theorem ceScan_block (m : String) (types : List TypeRec)
    (spawnable_types : List SpawnableType) (events : List Event) :
    ceScan m (ce_block_lines m types spawnable_types events) false = ([], false) := by
  obtain ⟨hmid1, hmid2, hmid3, hmid4⟩ := block_middle_ne_close m
  unfold ce_block_lines
  rw [ceScan_trig _ _ (isTrig_comment_line m)]
  rw [show ("\t" ++ ceOpen m) :: ((if types.isEmpty then []
        else ["\t\t<file name=\"" ++ m ++ "_types.xml\" type=\"types\" />"])
      ++ ((if spawnable_types.isEmpty then []
          else ["\t\t<file name=\"" ++ m ++ "_cfgspawnabletypes.xml\" type=\"spawnabletypes\" />"])
        ++ ((if events.isEmpty then []
            else ["\t\t<file name=\"" ++ m ++ "_events.xml\" type=\"events\" />"])
          ++ ["\t</ce>"]))) =
      (("\t" ++ ceOpen m) :: ((if types.isEmpty then []
          else ["\t\t<file name=\"" ++ m ++ "_types.xml\" type=\"types\" />"])
        ++ ((if spawnable_types.isEmpty then []
            else ["\t\t<file name=\"" ++ m ++ "_cfgspawnabletypes.xml\" type=\"spawnabletypes\" />"])
          ++ (if events.isEmpty then []
              else ["\t\t<file name=\"" ++ m ++ "_events.xml\" type=\"events\" />"]))))
        ++ ["\t</ce>"] from by simp]
  refine ceScan_drop_mid m _ ?_
  intro l hl
  rcases List.mem_cons.mp hl with rfl | hl2
  · exact hmid1
  · rcases List.mem_append.mp hl2 with h3 | h4
    · have : l = "\t\t<file name=\"" ++ m ++ "_types.xml\" type=\"types\" />" := by
        split at h3 <;> simp_all
      subst this; exact hmid2
    · rcases List.mem_append.mp h4 with h5 | h6
      · have : l = "\t\t<file name=\"" ++ m ++ "_cfgspawnabletypes.xml\" type=\"spawnabletypes\" />" := by
          split at h5 <;> simp_all
        subst this; exact hmid3
      · have : l = "\t\t<file name=\"" ++ m ++ "_events.xml\" type=\"events\" />" := by
          split at h6 <;> simp_all
        subst this; exact hmid4

/-! ### Hygiene of the spliced block lines -/

theorem append_ne_nil_right {α : Type} (xs ys : List α) (h : ys ≠ []) : xs ++ ys ≠ [] := by
  intro hc
  have := congrArg List.length hc
  simp only [List.length_append, List.length_nil] at this
  have : ys.length = 0 := by omega
  exact h (List.length_eq_zero.mp this)

/-- Hygiene of a line of shape `A ++ m ++ B` with a nonempty concrete
suffix: no newline and no trailing carriage return. -/
theorem hyg_wrap (A m B : String) (hm : '\n' ∉ m.data) (hA : '\n' ∉ A.data)
    (hB : '\n' ∉ B.data) (hBne : B.data ≠ []) (hBlast : B.data.getLast? ≠ some '\r') :
    '\n' ∉ (A ++ m ++ B).data ∧ (A ++ m ++ B).data.getLast? ≠ some '\r' := by
  constructor
  · rw [String.data_append, String.data_append]
    intro hmem
    rcases List.mem_append.mp hmem with h1 | h2
    · rcases List.mem_append.mp h1 with h3 | h4
      · exact hA h3
      · exact hm h4
    · exact hB h2
  · rw [String.data_append, String.data_append]
    rw [getLast?_append_right hBne]
    exact hBlast

/-- Hygiene of a line of shape `T ++ (A ++ m ++ B)`. -/
theorem hyg_wrap2 (T A m B : String) (hm : '\n' ∉ m.data) (hT : '\n' ∉ T.data)
    (hA : '\n' ∉ A.data) (hB : '\n' ∉ B.data) (hBne : B.data ≠ [])
    (hBlast : B.data.getLast? ≠ some '\r') :
    '\n' ∉ (T ++ (A ++ m ++ B)).data ∧ (T ++ (A ++ m ++ B)).data.getLast? ≠ some '\r' := by
  obtain ⟨h1, h2⟩ := hyg_wrap A m B hm hA hB hBne hBlast
  constructor
  · rw [String.data_append]
    intro hmem
    rcases List.mem_append.mp hmem with h3 | h4
    · exact hT h3
    · exact h1 h4
  · rw [String.data_append]
    rw [getLast?_append_right (by
      rw [String.data_append, String.data_append]
      exact append_ne_nil_right _ _ hBne)]
    exact h2

theorem block_lines_hyg (m : String) (hm : '\n' ∉ m.data) (types : List TypeRec)
    (spawnable_types : List SpawnableType) (events : List Event) :
    ∀ l ∈ ce_block_lines m types spawnable_types events,
      '\n' ∉ l.data ∧ l.data.getLast? ≠ some '\r' := by
  intro l hl
  unfold ce_block_lines at hl
  rcases List.mem_cons.mp hl with rfl | hl2
  · exact hyg_wrap2 "\t" "<!-- " m " -->" hm (by decide) (by decide) (by decide)
      (by decide) (by decide)
  · rcases List.mem_cons.mp hl2 with rfl | hl3
    · exact hyg_wrap2 "\t" "<ce folder=\"" m "_ce\">" hm (by decide) (by decide)
        (by decide) (by decide) (by decide)
    · rcases List.mem_append.mp hl3 with h4 | h5
      · have : l = "\t\t<file name=\"" ++ m ++ "_types.xml\" type=\"types\" />" := by
          split at h4 <;> simp_all
        subst this
        exact hyg_wrap "\t\t<file name=\"" m "_types.xml\" type=\"types\" />" hm
          (by decide) (by decide) (by decide) (by decide)
      · rcases List.mem_append.mp h5 with h6 | h7
        · have : l = "\t\t<file name=\"" ++ m
              ++ "_cfgspawnabletypes.xml\" type=\"spawnabletypes\" />" := by
            split at h6 <;> simp_all
          subst this
          exact hyg_wrap "\t\t<file name=\"" m
            "_cfgspawnabletypes.xml\" type=\"spawnabletypes\" />" hm
            (by decide) (by decide) (by decide) (by decide)
        · rcases List.mem_append.mp h7 with h8 | h9
          · have : l = "\t\t<file name=\"" ++ m ++ "_events.xml\" type=\"events\" />" := by
              split at h8 <;> simp_all
            subst this
            exact hyg_wrap "\t\t<file name=\"" m "_events.xml\" type=\"events\" />" hm
              (by decide) (by decide) (by decide) (by decide)
          · have : l = "\t</ce>" := by simpa using h9
            subst this
            exact ⟨by decide, by decide⟩

theorem findCloseIdx_lt (ls : List String) (i : Nat) (h : findCloseIdx ls = some i) :
    i < ls.length := by
  induction ls generalizing i with
  | nil => cases h
  | cons l rest ih =>
    unfold findCloseIdx at h
    by_cases hc : trimS l = "</economycore>"
    · rw [if_pos hc] at h
      injection h with h
      subst h
      simp
    · rw [if_neg hc] at h
      cases hr : findCloseIdx rest with
      | none => rw [hr] at h; cases h
      | some j =>
        rw [hr] at h
        have hj : j + 1 = i := by injection h
        have := ih j hr
        simp only [List.length_cons]
        omega

/-- C2 (corrected): for a manifest in normal form — the `"\n"`-join of
lines that contain no newline, do not end in a carriage return, whose last
line is nonempty, and none of which contains the mod's marker strings —
and a mod shortName without a newline, a successful register followed by
unregister restores the manifest byte-identically. -/
theorem c2_register_unregister_roundtrip (m : String) (hm : '\n' ∉ m.data)
    (types : List TypeRec) (spawnable_types : List SpawnableType) (events : List Event)
    (ls : List String)
    (hnl : ∀ l ∈ ls, '\n' ∉ l.data)
    (hcr : ∀ l ∈ ls, l.data.getLast? ≠ some '\r')
    (hlast : ls.getLast? ≠ some "")
    (htrig : ∀ l ∈ ls, isTrig m l = false)
    (out : String)
    (hreg : update_cfgeconomy m types spawnable_types events (joinLinesS ls) = .ok out) :
    remove_ce_entries m out = joinLinesS ls := by
  have hls : rustLines (joinLinesS ls) = ls := rustLines_joinLinesS ls hnl hcr hlast
  unfold update_cfgeconomy at hreg
  by_cases hempty : types.isEmpty ∧ spawnable_types.isEmpty ∧ events.isEmpty
  · rw [if_pos hempty] at hreg
    have hout : out = joinLinesS ls := by injection hreg with h; exact h.symm
    subst hout
    unfold remove_ce_entries
    rw [hls, ceScan_no_trig ls htrig]
  · rw [if_neg hempty] at hreg
    simp only [hls] at hreg
    cases hidx : findCloseIdx ls with
    | none => rw [hidx] at hreg; cases hreg
    | some i =>
      rw [hidx] at hreg
      have hout : out = joinLinesS (ls.take i
          ++ ce_block_lines m types spawnable_types events ++ ls.drop i) := by
        injection hreg with h
        exact h.symm
      subst hout
      unfold remove_ce_entries
      have hlt := findCloseIdx_lt ls i hidx
      have hdropne : ls.drop i ≠ [] := by
        intro hd
        have := congrArg List.length hd
        simp only [List.length_drop, List.length_nil] at this
        omega
      have hcomb_nl : ∀ l ∈ ls.take i ++ ce_block_lines m types spawnable_types events
          ++ ls.drop i, '\n' ∉ l.data := by
        intro l hl
        rcases List.mem_append.mp hl with h1 | h2
        · rcases List.mem_append.mp h1 with h3 | h4
          · exact hnl l (List.take_subset i ls h3)
          · exact (block_lines_hyg m hm types spawnable_types events l h4).1
        · exact hnl l (List.drop_subset i ls h2)
      have hcomb_cr : ∀ l ∈ ls.take i ++ ce_block_lines m types spawnable_types events
          ++ ls.drop i, l.data.getLast? ≠ some '\r' := by
        intro l hl
        rcases List.mem_append.mp hl with h1 | h2
        · rcases List.mem_append.mp h1 with h3 | h4
          · exact hcr l (List.take_subset i ls h3)
          · exact (block_lines_hyg m hm types spawnable_types events l h4).2
        · exact hcr l (List.drop_subset i ls h2)
      have hcomb_last : (ls.take i ++ ce_block_lines m types spawnable_types events
          ++ ls.drop i).getLast? ≠ some "" := by
        rw [getLast?_append_right hdropne, getLast?_drop ls i hlt]
        exact hlast
      rw [rustLines_joinLinesS _ hcomb_nl hcomb_cr hcomb_last]
      rw [List.append_assoc]
      rw [ceScan_append]
      rw [ceScan_no_trig (ls.take i) (fun l hl => htrig l (List.take_subset i ls hl))]
      dsimp only
      rw [ceScan_append, ceScan_block]
      dsimp only
      rw [ceScan_no_trig (ls.drop i) (fun l hl => htrig l (List.drop_subset i ls hl))]
      dsimp only
      rw [List.nil_append, List.take_append_drop]

/-- Witness for C2 at a concrete two-line manifest and one type record. -/
theorem c2_register_unregister_roundtrip_witness :
    update_cfgeconomy "MyMod" [sampleType] [] []
        (joinLinesS ["<economycore>", "</economycore>"]) =
      .ok ("<economycore>\n\t<!-- MyMod -->\n\t<ce folder=\"MyMod_ce\">"
        ++ "\n\t\t<file name=\"MyMod_types.xml\" type=\"types\" />\n\t</ce>\n</economycore>") ∧
    remove_ce_entries "MyMod"
        ("<economycore>\n\t<!-- MyMod -->\n\t<ce folder=\"MyMod_ce\">"
          ++ "\n\t\t<file name=\"MyMod_types.xml\" type=\"types\" />\n\t</ce>\n</economycore>") =
      joinLinesS ["<economycore>", "</economycore>"] := by
  constructor
  · rfl
  · exact c2_register_unregister_roundtrip "MyMod" (by decide) [sampleType] [] []
      ["<economycore>", "</economycore>"] (by decide) (by decide) (by decide) (by decide)
      _ rfl

/-- C7 (corrected): on a manifest in normal form (the `"\n"`-join of
newline-free lines with no trailing carriage returns and a nonempty last
line) none of whose lines contains the mod's marker strings, unregister
leaves the file byte-identical, and hence a second unregister in a row is
also a no-op.  Outside normal form the unconditional rewrite changes the
bytes (see the counterexample). -/
theorem c7_unregister_noop (m : String) (ls : List String)
    (hnl : ∀ l ∈ ls, '\n' ∉ l.data)
    (hcr : ∀ l ∈ ls, l.data.getLast? ≠ some '\r')
    (hlast : ls.getLast? ≠ some "")
    (htrig : ∀ l ∈ ls, isTrig m l = false) :
    remove_ce_entries m (joinLinesS ls) = joinLinesS ls ∧
      remove_ce_entries m (remove_ce_entries m (joinLinesS ls)) = joinLinesS ls := by
  have h1 : remove_ce_entries m (joinLinesS ls) = joinLinesS ls := by
    unfold remove_ce_entries
    rw [rustLines_joinLinesS ls hnl hcr hlast, ceScan_no_trig ls htrig]
  exact ⟨h1, by rw [h1, h1]⟩

/-- Witness for C7 at a concrete marker-free manifest. -/
theorem c7_unregister_noop_witness :
    remove_ce_entries "MyMod" (joinLinesS ["<economycore>", "\t<classes/>", "</economycore>"]) =
      joinLinesS ["<economycore>", "\t<classes/>", "</economycore>"] :=
  (c7_unregister_noop "MyMod" ["<economycore>", "\t<classes/>", "</economycore>"]
    (by decide) (by decide) (by decide) (by decide)).1

/-! ### Lemmas for the C5 block invariant -/

theorem splitOnP_parts (p : Char → Bool) (l : List Char) :
    ∀ x ∈ splitOnP p l, ∀ c ∈ x, p c = false := by
  induction l with
  | nil =>
    intro x hx c hc
    simp only [splitOnP, List.mem_singleton] at hx
    subst hx
    cases hc
  | cons a as ih =>
    intro x hx c hc
    by_cases hp : p a = true
    · simp only [splitOnP, hp, if_true] at hx
      rcases List.mem_cons.mp hx with rfl | hx2
      · cases hc
      · exact ih x hx2 c hc
    · have hp2 : p a = false := Bool.eq_false_iff.mpr hp
      simp only [splitOnP, hp2, Bool.false_eq_true, if_false] at hx
      cases hs : splitOnP p as with
      | nil => exact absurd hs (splitOnP_ne_nil p as)
      | cons h t =>
        rw [hs] at hx
        rcases List.mem_cons.mp hx with rfl | hx2
        · rcases List.mem_cons.mp hc with rfl | hc2
          · exact hp2
          · exact ih h (hs ▸ List.mem_cons_self _ _) c hc2
        · exact ih x (hs ▸ List.mem_cons_of_mem _ hx2) c hc

theorem rustLines_no_nl (s : String) : ∀ l ∈ rustLines s, '\n' ∉ l.data := by
  intro l hl
  unfold rustLines at hl
  obtain ⟨x, hx, rfl⟩ := List.mem_map.mp hl
  obtain ⟨p, hp, hor⟩ := rustLinesAux_shape _ x hx
  intro hmem
  have hmem2 : '\n' ∈ x := hmem
  have hmem3 : '\n' ∈ p := by
    rcases hor with rfl | rfl
    · unfold stripCR at hmem2
      split at hmem2
      · exact List.dropLast_subset _ hmem2
      · exact hmem2
    · exact hmem2
  have := splitOnP_parts isNlChar s.data p hp '\n' hmem3
  simp [isNlChar] at this

theorem startsWith_append_mono {n xs : List Char} (ys : List Char)
    (h : startsWithL n xs = true) : startsWithL n (xs ++ ys) = true := by
  induction n generalizing xs with
  | nil => rfl
  | cons a as ih =>
    cases xs with
    | nil => cases h
    | cons b bs =>
      simp only [startsWithL, Bool.and_eq_true] at h
      simp only [List.cons_append, startsWithL, Bool.and_eq_true]
      exact ⟨h.1, ih h.2⟩

theorem isInfix_append_mono {n xs : List Char} (ys : List Char)
    (h : isInfixOfL n xs = true) : isInfixOfL n (xs ++ ys) = true := by
  induction xs with
  | nil =>
    have hn : startsWithL n [] = true := by
      unfold isInfixOfL at h
      by_cases hs : startsWithL n [] = true
      · exact hs
      · rw [Bool.eq_false_iff.mpr hs] at h
        simp at h
    cases n with
    | nil => exact isInfix_of_startsWith rfl
    | cons a as => cases hn
  | cons x xt ih =>
    unfold isInfixOfL at h
    by_cases hs : startsWithL n (x :: xt) = true
    · exact isInfix_of_startsWith (by
        have := startsWith_append_mono ys hs
        simpa using this)
    · rw [Bool.eq_false_iff.mpr hs] at h
      simp only [if_false] at h
      exact isInfix_cons x (ih (by simpa using h))

theorem isInfix_dropLast {n l : List Char} (h : isInfixOfL n l.dropLast = true) :
    isInfixOfL n l = true := by
  by_cases hl : l = []
  · subst hl; exact h
  · rw [← List.dropLast_append_getLast hl]
    exact isInfix_append_mono _ h

theorem isTrig_stripCR {m l : String} (h : isTrig m l = false) :
    isTrig m (String.mk (stripCR l.data)) = false := by
  unfold isTrig containsS at h ⊢
  rw [Bool.or_eq_false_iff] at h ⊢
  obtain ⟨h1, h2⟩ := h
  have key : ∀ n : List Char, isInfixOfL n l.data = false →
      isInfixOfL n (String.mk (stripCR l.data)).data = false := by
    intro n hn
    by_cases hc : isInfixOfL n (String.mk (stripCR l.data)).data = true
    · exfalso
      have hc2 : isInfixOfL n (stripCR l.data) = true := hc
      have : isInfixOfL n l.data = true := by
        unfold stripCR at hc2
        split at hc2
        · exact isInfix_dropLast hc2
        · exact hc2
      rw [this] at hn
      cases hn
    · exact Bool.eq_false_iff.mpr hc
  exact ⟨key _ h1, key _ h2⟩

theorem no_trig_no_open {m l : String} (h : isTrig m l = false) :
    containsS l (ceOpen m) = false := by
  unfold isTrig at h
  exact (Bool.or_eq_false_iff.mp h).2

/-- Every line of the re-split of the unregister output is one of the kept
lines with a trailing CR stripped; in particular it carries no trigger. -/
theorem remove_out_lines (m content : String) :
    ∀ l' ∈ rustLines (remove_ce_entries m content), isTrig m l' = false := by
  have hksprops := ceScan_out_mem m (rustLines content) false
  have hksnl : ∀ l ∈ (ceScan m (rustLines content) false).1, '\n' ∉ l.data :=
    fun l hl => rustLines_no_nl content l (hksprops l hl).1
  have hkstrig : ∀ l ∈ (ceScan m (rustLines content) false).1, isTrig m l = false :=
    fun l hl => (hksprops l hl).2
  intro l' hl'
  unfold remove_ce_entries at hl'
  cases hk : (ceScan m (rustLines content) false).1 with
  | nil =>
    rw [hk] at hl'
    simp [rustLines, joinLinesS, joinNl, splitOnP, rustLinesAux] at hl'
  | cons k kt =>
    rw [hk] at hl'
    unfold rustLines joinLinesS at hl'
    have hsplit : splitOnP isNlChar (String.mk (joinNl ((k :: kt).map String.data))).data =
        (k :: kt).map String.data := by
      show splitOnP isNlChar (joinNl ((k :: kt).map String.data)) = (k :: kt).map String.data
      exact joinNl_split _ (fun x hx => by
          obtain ⟨s, hs, rfl⟩ := List.mem_map.mp hx
          exact hksnl s (hk ▸ hs)) (by simp)
    rw [hsplit] at hl'
    obtain ⟨x, hx, rfl⟩ := List.mem_map.mp hl'
    obtain ⟨p, hp, hor⟩ := rustLinesAux_shape _ x hx
    obtain ⟨l, hlk, rfl⟩ := List.mem_map.mp hp
    rcases hor with rfl | rfl
    · exact isTrig_stripCR (hkstrig l (hk ▸ hlk))
    · exact hkstrig l (hk ▸ hlk)

/-- The opening `<ce>` line contains the open marker. -/
theorem open_line_has_open (m : String) :
    containsS ("\t" ++ ceOpen m) (ceOpen m) = true := by
  unfold containsS
  have h : ("\t" ++ ceOpen m).data = '\t' :: (ceOpen m).data := by
    rw [String.data_append]
    rfl
  rw [h]
  have := isInfix_append_self ['\t'] (ceOpen m).data
  simpa using this

/-- The identifying comment line does not contain the open marker (it is
shorter than the marker). -/
theorem comment_line_no_open (m : String) :
    containsS ("\t" ++ ceComment m) (ceOpen m) = false := by
  by_cases h : containsS ("\t" ++ ceComment m) (ceOpen m) = true
  · exfalso
    have hlen := isInfix_length h
    have h1 : (ceOpen m).data.length = m.data.length + 17 := by
      unfold ceOpen
      rw [String.data_append, String.data_append, List.length_append, List.length_append]
      simp
      omega
    have h2 : ("\t" ++ ceComment m).data.length = m.data.length + 10 := by
      unfold ceComment
      rw [String.data_append, String.data_append, String.data_append,
        List.length_append, List.length_append, List.length_append]
      simp
      omega
    rw [h1, h2] at hlen
    omega
  · exact Bool.eq_false_iff.mpr h

/-- The closing line does not contain the open marker. -/
theorem close_line_no_open (m : String) : containsS "\t</ce>" (ceOpen m) = false :=
  no_trig_no_open (isTrig_close_false m)

/-- A `<file>` line does not contain the open marker, provided the
shortName contains no `<`: every `<` of the line is followed by `f`, while
the marker starts `<c`. -/
theorem file_line_no_open (m : String) (hlt : '<' ∉ m.data) (suf : String)
    (hsufhead : suf.data.head? = some '_')
    (hsufpair : hasPair '<' 'c' suf.data = false) :
    containsS ("\t\t<file name=\"" ++ m ++ suf) (ceOpen m) = false := by
  by_cases h : containsS ("\t\t<file name=\"" ++ m ++ suf) (ceOpen m) = true
  · exfalso
    have hneed : (ceOpen m).data =
        '<' :: 'c' :: ("e folder=\"".data ++ m.data ++ "_ce\">".data) := by
      unfold ceOpen
      rw [String.data_append, String.data_append]
      rfl
    unfold containsS at h
    rw [hneed] at h
    have hp := infix_hasPair h
    rw [String.data_append, String.data_append] at hp
    have hfalse : hasPair '<' 'c'
        ("\t\t<file name=\"".data ++ m.data ++ suf.data) = false := by
      apply hasPair_append_false
      · apply hasPair_append_false
        · decide
        · exact hasPair_no_a hlt
        · rintro ⟨hx, -⟩
          rw [show ("\t\t<file name=\"".data : List Char).getLast? = some '"' from by
            decide] at hx
          injection hx with hx2
          exact absurd hx2 (by decide)
      · exact hsufpair
      · rintro ⟨-, hy⟩
        rw [hsufhead] at hy
        injection hy with hy2
        exact absurd hy2 (by decide)
    rw [hp] at hfalse
    cases hfalse
  · exact Bool.eq_false_iff.mpr h

/-- C5 (corrected): the at-most-one-block invariant is established by
unregister unconditionally — its output contains zero opening markers for
the mod and its scan ends outside any block — and preserved by a register
applied to a normal-form manifest with no marker lines for the mod, which
yields at most one opening marker and a well-closed block.  (Register
applied to a manifest already holding the mod's block duplicates it: see
the counterexample.)  The shortName is assumed to contain no `<` and no
newline. -/
theorem c5_block_invariant (m : String) (hm : '\n' ∉ m.data) (hltm : '<' ∉ m.data)
    (types : List TypeRec) (spawnable_types : List SpawnableType) (events : List Event)
    (ls : List String)
    (hnl : ∀ l ∈ ls, '\n' ∉ l.data)
    (hcr : ∀ l ∈ ls, l.data.getLast? ≠ some '\r')
    (hlast : ls.getLast? ≠ some "")
    (htrig : ∀ l ∈ ls, isTrig m l = false) :
    (∀ out, update_cfgeconomy m types spawnable_types events (joinLinesS ls) = .ok out →
        ceOpenCount m out ≤ 1 ∧ (ceScan m (rustLines out) false).2 = false) ∧
    (∀ content, ceOpenCount m (remove_ce_entries m content) = 0 ∧
        (ceScan m (rustLines (remove_ce_entries m content)) false).2 = false) := by
  constructor
  · intro out hreg
    have hls : rustLines (joinLinesS ls) = ls := rustLines_joinLinesS ls hnl hcr hlast
    unfold update_cfgeconomy at hreg
    by_cases hempty : types.isEmpty ∧ spawnable_types.isEmpty ∧ events.isEmpty
    · rw [if_pos hempty] at hreg
      have hout : out = joinLinesS ls := by injection hreg with h; exact h.symm
      subst hout
      constructor
      · unfold ceOpenCount
        rw [hls]
        rw [List.filter_eq_nil_iff.mpr (fun l hl => by
          simp [no_trig_no_open (htrig l hl)])]
        simp
      · rw [hls, ceScan_no_trig ls htrig]
    · rw [if_neg hempty] at hreg
      simp only [hls] at hreg
      cases hidx : findCloseIdx ls with
      | none => rw [hidx] at hreg; cases hreg
      | some i =>
        rw [hidx] at hreg
        have hout : out = joinLinesS (ls.take i
            ++ ce_block_lines m types spawnable_types events ++ ls.drop i) := by
          injection hreg with h
          exact h.symm
        subst hout
        have hlt2 := findCloseIdx_lt ls i hidx
        have hdropne : ls.drop i ≠ [] := by
          intro hd
          have := congrArg List.length hd
          simp only [List.length_drop, List.length_nil] at this
          omega
        have hcomb_nl : ∀ l ∈ ls.take i ++ ce_block_lines m types spawnable_types events
            ++ ls.drop i, '\n' ∉ l.data := by
          intro l hl
          rcases List.mem_append.mp hl with h1 | h2
          · rcases List.mem_append.mp h1 with h3 | h4
            · exact hnl l (List.take_subset i ls h3)
            · exact (block_lines_hyg m hm types spawnable_types events l h4).1
          · exact hnl l (List.drop_subset i ls h2)
        have hcomb_cr : ∀ l ∈ ls.take i ++ ce_block_lines m types spawnable_types events
            ++ ls.drop i, l.data.getLast? ≠ some '\r' := by
          intro l hl
          rcases List.mem_append.mp hl with h1 | h2
          · rcases List.mem_append.mp h1 with h3 | h4
            · exact hcr l (List.take_subset i ls h3)
            · exact (block_lines_hyg m hm types spawnable_types events l h4).2
          · exact hcr l (List.drop_subset i ls h2)
        have hcomb_last : (ls.take i ++ ce_block_lines m types spawnable_types events
            ++ ls.drop i).getLast? ≠ some "" := by
          rw [getLast?_append_right hdropne, getLast?_drop ls i hlt2]
          exact hlast
        have hrust := rustLines_joinLinesS _ hcomb_nl hcomb_cr hcomb_last
        constructor
        · unfold ceOpenCount
          rw [hrust]
          rw [List.filter_append, List.filter_append]
          have hftake : (ls.take i).filter (fun l => containsS l (ceOpen m)) = [] :=
            List.filter_eq_nil_iff.mpr (fun l hl => by
              simp [no_trig_no_open (htrig l (List.take_subset i ls hl))])
          have hfdrop : (ls.drop i).filter (fun l => containsS l (ceOpen m)) = [] :=
            List.filter_eq_nil_iff.mpr (fun l hl => by
              simp [no_trig_no_open (htrig l (List.drop_subset i ls hl))])
          rw [hftake, hfdrop]
          have hblock : (ce_block_lines m types spawnable_types events).filter
              (fun l => containsS l (ceOpen m)) = ["\t" ++ ceOpen m] := by
            unfold ce_block_lines
            simp only [List.filter_cons, List.filter_append,
              apply_ite (List.filter (fun l => containsS l (ceOpen m))),
              comment_line_no_open m, open_line_has_open m, close_line_no_open m,
              file_line_no_open m hltm "_types.xml\" type=\"types\" />"
                (by decide) (by decide),
              file_line_no_open m hltm "_cfgspawnabletypes.xml\" type=\"spawnabletypes\" />"
                (by decide) (by decide),
              file_line_no_open m hltm "_events.xml\" type=\"events\" />"
                (by decide) (by decide),
              List.filter_nil, Bool.false_eq_true, if_false, if_true, ite_self]
            simp
          rw [hblock]
          simp
        · rw [hrust]
          rw [List.append_assoc, ceScan_append,
            ceScan_no_trig (ls.take i) (fun l hl => htrig l (List.take_subset i ls hl))]
          dsimp only
          rw [ceScan_append, ceScan_block]
          dsimp only
          rw [ceScan_no_trig (ls.drop i) (fun l hl => htrig l (List.drop_subset i ls hl))]
  · intro content
    have hmem := remove_out_lines m content
    constructor
    · unfold ceOpenCount
      rw [List.filter_eq_nil_iff.mpr (fun l hl => by
        simp [no_trig_no_open (hmem l hl)])]
      rfl
    · rw [ceScan_no_trig _ hmem]

/-- Witness for C5: the concrete register and unregister steps at a tiny
manifest. -/
theorem c5_block_invariant_witness :
    (ceOpenCount "MyMod" ("<economycore>\n\t<!-- MyMod -->\n\t<ce folder=\"MyMod_ce\">"
        ++ "\n\t\t<file name=\"MyMod_types.xml\" type=\"types\" />\n\t</ce>\n</economycore>")
      ≤ 1) ∧
    ceOpenCount "MyMod"
        (remove_ce_entries "MyMod" "<economycore>\n</economycore>") = 0 := by
  have h := c5_block_invariant "MyMod" (by decide) (by decide) [sampleType] [] []
    ["<economycore>", "</economycore>"] (by decide) (by decide) (by decide) (by decide)
  exact ⟨(h.1 _ rfl).1, (h.2 "<economycore>\n</economycore>").1⟩

/-! ## Counterexample theorems for C2, C5, C7 -/

/-- C2 counterexample: on a manifest that ends with a newline, register
followed by unregister returns the manifest WITHOUT its trailing newline —
both operations rewrite the file as `lines.join("\n")` — so the file is
not byte-identical to its pre-register state. -/
theorem c2_register_unregister_counterexample :
    (update_cfgeconomy "MyMod" [sampleType] [] [] "<economycore>\n</economycore>\n").map
        (remove_ce_entries "MyMod") = .ok "<economycore>\n</economycore>" ∧
      ("<economycore>\n</economycore>" : String) ≠ "<economycore>\n</economycore>\n" := by
  exact ⟨rfl, by decide⟩

/-- C5 counterexample: starting from a manifest with no block for `MyMod`,
the sequence register–register leaves TWO opening `<ce folder="MyMod_ce">`
marker lines: `update_cfgeconomy` inserts unconditionally, so an
unrestricted sequence of operations violates at-most-one-block-per-mod. -/
theorem c5_double_register_counterexample :
    ceOpenCount "MyMod" "<economycore>\n</economycore>" = 0 ∧
      ((update_cfgeconomy "MyMod" [sampleType] [] [] "<economycore>\n</economycore>").bind
          (update_cfgeconomy "MyMod" [sampleType] [] [])).map (ceOpenCount "MyMod") =
        .ok 2 := by
  exact ⟨by decide, rfl⟩

/-- C7 counterexample: unregistering a mod with no block from a manifest
that ends with a newline rewrites the file without that newline, so the
bytes change even though no block was removed. -/
theorem c7_unregister_counterexample :
    remove_ce_entries "MyMod" "<economycore>\n\t<classes/>\n</economycore>\n" =
        "<economycore>\n\t<classes/>\n</economycore>" ∧
      ("<economycore>\n\t<classes/>\n</economycore>" : String) ≠
        "<economycore>\n\t<classes/>\n</economycore>\n" := by
  exact ⟨by decide, by decide⟩

end DayzTool
